import Mathlib

set_option maxRecDepth 100000

/-
Verification development for the layer-toolkit repository.

Shallow embedding of the two analysis modules:
  - layer_toolkit/analysis/elf.py   (ELF hotspot extraction)
  - layer_toolkit/analysis/bonds.py (bond clustering, layer counting, supercell)

Modelling conventions:
  - Machine floats are modelled by exact rationals.  Python round and
    numpy round are round-half-to-even; they are embedded by
    roundHalfEven / roundTo below.
  - Euclidean norms (irrational in general) are kept as squared values in
    the executable definitions; real square roots appear only in
    fracDist, with a bridging lemma showing the comparison done by the
    code (norm < threshold) is equivalent to the squared comparison used
    by the executable embedding.
  - numpy argpartition + descending argsort is modelled by taking a
    prefix of one fixed descending sort of all flat indices (ties broken
    by ascending index, a determinization of numpy's unspecified tie
    order; none of the proved properties depends on the tie order).
  - The file-reading front end (pymatgen Elfcar.from_file and
    _read_elfcar_origin) is abstracted as an Except-valued load result
    passed to analyzeElfcarWithHotspots, so that the argument-validation
    order of the source is preserved observably.
-/

/-- Round-half-to-even to an integer, the semantics of Python's built-in
round and of numpy.round (banker's rounding). -/
def roundHalfEven (q : ℚ) : ℤ :=
  if q - (⌊q⌋ : ℚ) < 1/2 then ⌊q⌋
  else if 1/2 < q - (⌊q⌋ : ℚ) then ⌊q⌋ + 1
  else if ⌊q⌋ % 2 = 0 then ⌊q⌋ else ⌊q⌋ + 1

/-- Embedding of Python round(q, n) / numpy.round(q, n): round half to
even at n decimal places. -/
def roundTo (n : ℕ) (q : ℚ) : ℚ :=
  (roundHalfEven (q * 10 ^ n) : ℚ) / 10 ^ n

/-- Embedding of elf.py _index_to_frac: per axis, divide the grid index by
(dim - 1), or by 1 when the axis has size 1. -/
def indexToFrac (index : List ℕ) (gridDimensions : List ℕ) : List ℚ :=
  (index.zip gridDimensions).map fun p =>
    let denominator : ℚ := if 1 < p.2 then ((p.2 - 1 : ℕ) : ℚ) else 1
    (p.1 : ℚ) / denominator

/-- Squared periodic fractional distance: per-axis wrap min(|d|, 1-|d|),
then the squared Euclidean norm.  elf.py _fractional_distance returns the
norm itself; the squared value is kept exact in ℚ. -/
def fracDistSq (a b : List ℚ) : ℚ :=
  ((a.zip b).map fun p =>
    let d := |p.1 - p.2|
    let w := min d (1 - d)
    w * w).sum

/-- Embedding of elf.py _fractional_distance (the Euclidean norm of the
wrapped per-axis differences). -/
noncomputable def fracDist (a b : List ℚ) : ℝ :=
  Real.sqrt ((fracDistSq a b : ℚ) : ℝ)

/-- Decides `Real.sqrt d < s` in exact rational arithmetic (valid for
0 ≤ d): the comparison `_fractional_distance(...) < min_separation_frac`
performed by the source. -/
def ltSqrtQ (d s : ℚ) : Bool :=
  decide (0 < s ∧ d < s ^ 2)

/-- Embedding of elf.py _is_far_enough_frac: the candidate is far enough
when no accepted hotspot is at distance < min_separation_frac. -/
def isFarEnoughFrac (candidate : List ℚ) (accepted : List (List ℚ))
    (minSeparationFrac : ℚ) : Bool :=
  accepted.all fun existing => !ltSqrtQ (fracDistSq candidate existing) minSeparationFrac

/-- Embedding of numpy.unravel_index in C order. -/
def unravelIndex : ℕ → List ℕ → List ℕ
  | _, [] => []
  | i, _ :: ds =>
      let stride := ds.prod
      (i / stride) :: unravelIndex (i % stride) ds

/-- Dot product of two rational vectors. -/
def dotVec (a b : List ℚ) : ℚ :=
  ((a.zip b).map fun p => p.1 * p.2).sum

/-- Embedding of elf.py _frac_to_cart: numpy.dot(frac, lattice_vectors),
a row vector times the lattice matrix (rows are the lattice vectors). -/
def fracToCart (fracCoords : List ℚ) (latticeVectors : List (List ℚ)) : List ℚ :=
  latticeVectors.transpose.map fun col => dotVec fracCoords col

/-- Squared Euclidean distance between two rational vectors. -/
def distSqVec (a b : List ℚ) : ℚ :=
  ((a.zipWith (fun x y => x - y) b).map fun x => x * x).sum

/-- Minimum squared distance from a Cartesian point to the atom list;
none models the float nan produced by the source when there are no atoms.
The source stores the (rounded) Euclidean distance itself; the exact
squared value kept here determines it. -/
def nearestAtomDistSq (cartCoord : List ℚ) (atoms : List (List ℚ)) : Option ℚ :=
  match atoms.map fun a => distSqVec a cartCoord with
  | [] => none
  | d :: ds => some (ds.foldl min d)

/-- Embedding of the ElfHotspot dataclass.  shortest_distance (a rounded
Euclidean distance, nan when no atoms exist) is represented by the exact
squared distance (none for nan); all other fields follow the source,
with its round(..., 5) / numpy.round(..., 5) embedded as roundTo 5. -/
structure ElfHotspot where
  rank : ℕ
  elf_value : ℚ
  frac_coord : List ℚ
  cart_coord : List ℚ
  shortestDistanceSq : Option ℚ
deriving DecidableEq, Repr

/-- The inputs _extract_hotspots receives from _load_elf_context: the ELF
grid (flattened in C order, as elf_data.reshape(-1) produces), its shape,
the lattice matrix and the Cartesian atom positions. -/
structure ElfContext where
  elfData : List ℚ
  gridDimensions : List ℕ
  latticeVectors : List (List ℚ)
  atomicPositionsCart : List (List ℚ)
deriving DecidableEq, Repr

/-- Value of the flattened grid at a flat index (flat[flat_index]). -/
def ElfContext.val (ctx : ElfContext) (i : ℕ) : ℚ :=
  ctx.elfData.getD i 0

/-- Fractional coordinate of a flat grid index:
_index_to_frac(np.unravel_index(flat_index, grid_dimensions), grid_dimensions). -/
def fracOfIndex (ctx : ElfContext) (flatIndex : ℕ) : List ℚ :=
  indexToFrac (unravelIndex flatIndex ctx.gridDimensions) ctx.gridDimensions

/-- The ElfHotspot record built by _extract_hotspots for an accepted flat
index, given the rank it receives. -/
def mkHotspot (ctx : ElfContext) (rank : ℕ) (flatIndex : ℕ) : ElfHotspot :=
  let fracCoord := fracOfIndex ctx flatIndex
  let cartCoord := fracToCart fracCoord ctx.latticeVectors
  { rank := rank
    elf_value := roundTo 5 (ctx.val flatIndex)
    frac_coord := fracCoord.map (roundTo 5)
    cart_coord := cartCoord.map (roundTo 5)
    shortestDistanceSq := nearestAtomDistSq cartCoord ctx.atomicPositionsCart }

/-- The mutable locals of _extract_hotspots: the processed index set, the
accepted fractional coordinates and the hotspot list. -/
structure ExtractState where
  processed : List ℕ
  acceptedFrac : List (List ℚ)
  hotspots : List ElfHotspot
deriving DecidableEq, Repr

/-- Initial state of the extraction loop. -/
def initExtractState : ExtractState :=
  { processed := [], acceptedFrac := [], hotspots := [] }

/-- Descending comparison on flat indices: larger grid value first, ties
broken by ascending index (a determinization of numpy's unspecified tie
order in argsort). -/
def idxLe (ctx : ElfContext) (i j : ℕ) : Bool :=
  decide (ctx.val j < ctx.val i ∨ (ctx.val i = ctx.val j ∧ i ≤ j))

/-- All flat indices sorted descending by grid value.  The source selects
the top candidate_count indices with argpartition and sorts them
descending; that candidate list is the candidate_count-prefix of this
fixed full descending order. -/
def sortedIndices (ctx : ElfContext) : List ℕ :=
  (List.range ctx.elfData.length).mergeSort (idxLe ctx)

/-- One iteration of the inner candidate walk of _extract_hotspots.  The
first guard models the early return once top_n hotspots are accepted
(remaining iterations become no-ops). -/
def passStep (ctx : ElfContext) (topN : ℕ) (minSep : ℚ)
    (st : ExtractState) (flatIndex : ℕ) : ExtractState :=
  if topN ≤ st.hotspots.length then st
  else if flatIndex ∈ st.processed then st
  else
    let st1 : ExtractState := { st with processed := flatIndex :: st.processed }
    if isFarEnoughFrac (fracOfIndex ctx flatIndex) st.acceptedFrac minSep then
      { st1 with
        acceptedFrac := st1.acceptedFrac ++ [fracOfIndex ctx flatIndex]
        hotspots := st1.hotspots ++ [mkHotspot ctx (st1.hotspots.length + 1) flatIndex] }
    else st1

/-- One pass of _extract_hotspots over the ordered candidate pool of the
current candidate_count. -/
def runPass (ctx : ElfContext) (topN : ℕ) (minSep : ℚ)
    (st : ExtractState) (candidateCount : ℕ) : ExtractState :=
  List.foldl (passStep ctx topN minSep) st ((sortedIndices ctx).take candidateCount)

/-- The while-loop of _extract_hotspots: run a pass, return early when
top_n hotspots were accepted, break when the pool already covers the
grid, otherwise double the pool (capped at the grid size) and repeat.
The fuel argument only bounds the recursion; extractState supplies
enough fuel for the doubling to reach the cap. -/
def extractLoop (ctx : ElfContext) (topN : ℕ) (minSep : ℚ) :
    ℕ → ℕ → ExtractState → ExtractState
  | 0, _, st => st
  | fuel + 1, candidateCount, st =>
    if topN ≤ st.hotspots.length then st
    else
      let st' := runPass ctx topN minSep st candidateCount
      if topN ≤ st'.hotspots.length then st'
      else if ctx.elfData.length ≤ candidateCount then st'
      else extractLoop ctx topN minSep fuel
        (min ctx.elfData.length (candidateCount * 2)) st'

/-- Final state of _extract_hotspots: empty grids short-circuit, otherwise
the loop starts from candidate_count = min(size, max(top_n * 256, top_n)). -/
def extractState (ctx : ElfContext) (topN : ℕ) (minSep : ℚ) : ExtractState :=
  if ctx.elfData.length = 0 then initExtractState
  else
    extractLoop ctx topN minSep (ctx.elfData.length + 1)
      (min ctx.elfData.length (max (topN * 256) topN)) initExtractState

/-- Embedding of elf.py _extract_hotspots (the returned hotspot list). -/
def extractHotspots (ctx : ElfContext) (topN : ℕ) (minSep : ℚ) : List ElfHotspot :=
  (extractState ctx topN minSep).hotspots

/-- Embedding of the ElfMetrics dataclass (shortest_distance represented
by its exact squared value, as in ElfHotspot). -/
structure ElfMetrics where
  max_elf : ℚ
  max_frac_coord : List ℚ
  max_cart_coord : List ℚ
  shortestDistanceSq : Option ℚ
  average_elf : ℚ
deriving DecidableEq, Repr

/-- Embedding of the ElfAnalysisResult dataclass. -/
structure ElfAnalysisResult where
  metrics : ElfMetrics
  hotspots : List ElfHotspot
deriving DecidableEq, Repr

/-- The failure channel of analyze_elfcar_with_hotspots: ValueError and
RuntimeError raised by the function itself, and any error raised while
loading the ELFCAR file. -/
inductive AnalysisError where
  | valueError (msg : String)
  | runtimeError (msg : String)
  | loadError (msg : String)
deriving DecidableEq, Repr

/-- Embedding of elf.py analyze_elfcar_with_hotspots.  Reading and parsing
the ELFCAR file (_load_elf_context) is abstracted as the Except-valued
first argument; the source consults it only after validating top_n and
min_separation_frac, which is mirrored here. -/
def analyzeElfcarWithHotspots (loadElfContext : Except String ElfContext)
    (topN : ℤ) (minSeparationFrac : ℚ) : Except AnalysisError ElfAnalysisResult :=
  if topN < 1 then .error (.valueError ("top_n must be >= 1"))
  else if minSeparationFrac < 0 then .error (.valueError ("min_separation_frac must be >= 0"))
  else
    match loadElfContext with
    | .error msg => .error (.loadError msg)
    | .ok ctx =>
      let averageElf := roundTo 5 (ctx.elfData.sum / (ctx.elfData.length : ℚ))
      match extractHotspots ctx topN.toNat minSeparationFrac with
      | [] => .error (.runtimeError ("No ELF hotspots could be determined"))
      | top :: rest =>
        .ok { metrics :=
                { max_elf := top.elf_value
                  max_frac_coord := top.frac_coord
                  max_cart_coord := top.cart_coord
                  shortestDistanceSq := top.shortestDistanceSq
                  average_elf := averageElf }
              hotspots := top :: rest }

/-- Embedding of the BondSummary dataclass. -/
structure BondSummary where
  bond_type : String
  length : ℚ
  count : ℕ
deriving DecidableEq, Repr

/-- The bond buckets of bonds.py: a Python dict from (bond_type,
representative_length) to a count, modelled as an insertion-ordered
association list (Python dict iteration follows insertion order). -/
abbrev Bucket := List ((String × ℚ) × ℕ)

/-- Default value of the tolerance parameter of _resolve_bond_key. -/
def bondTolerance : ℚ := 8 / 1000

/-- The match test of the loop in _resolve_bond_key:
key[0] == bond_type and abs(key[1] - bond_length) <= tolerance. -/
def matchesKey (bondType : String) (bondLength tolerance : ℚ)
    (entry : (String × ℚ) × ℕ) : Bool :=
  entry.1.1 == bondType && decide (|entry.1.2 - bondLength| ≤ tolerance)

/-- Embedding of bonds.py _resolve_bond_key: the first existing key of the
same type within tolerance, otherwise a fresh key with the length rounded
to 3 decimals (Python round, half to even). -/
def resolveBondKey (bucket : Bucket) (bondType : String) (bondLength : ℚ)
    (tolerance : ℚ) : String × ℚ :=
  match bucket.find? (matchesKey bondType bondLength tolerance) with
  | some entry => entry.1
  | none => (bondType, roundTo 3 bondLength)

/-- Python dict lookup bucket.get(key, 0). -/
def bucketGet (bucket : Bucket) (key : String × ℚ) : ℕ :=
  (((bucket.find? fun e => e.1 == key).map fun e => e.2).getD 0)

/-- Python dict assignment bucket[key] = value: updates the entry in place
when the key is present (dict keys keep their insertion position),
otherwise appends a new entry at the end. -/
def bucketSet (bucket : Bucket) (key : String × ℚ) (value : ℕ) : Bucket :=
  if bucket.any fun e => e.1 == key then
    bucket.map fun e => if e.1 == key then (e.1, value) else e
  else bucket ++ [(key, value)]

/-- The accumulation step of _collect_bonds:
key = _resolve_bond_key(bucket, bond_type, bond_length);
bucket[key] = bucket.get(key, 0) + 1 (with the default tolerance). -/
def addBond (bucket : Bucket) (bondType : String) (bondLength : ℚ) : Bucket :=
  let key := resolveBondKey bucket bondType bondLength bondTolerance
  bucketSet bucket key (bucketGet bucket key + 1)

/-- Bucket accumulated by _collect_bonds over a stream of classified
(bond_type, bond_length) pairs.  The neighbor enumeration, fractional
filter and undirected deduplication that produce the stream live in
pymatgen-facing code and are not part of the bucket semantics. -/
def collectBonds (bonds : List (String × ℚ)) : Bucket :=
  bonds.foldl (fun bucket p => addBond bucket p.1 p.2) []

/-- The (bond, assigned key) pairs produced while accumulating a bond
stream, in processing order: instrumentation of collectBonds used to
state which representative each bond length was attached to. -/
def bondAssignmentsAux : Bucket → List (String × ℚ) → List ((String × ℚ) × (String × ℚ))
  | _, [] => []
  | bucket, p :: rest =>
      (p, resolveBondKey bucket p.1 p.2 bondTolerance) ::
        bondAssignmentsAux (addBond bucket p.1 p.2) rest

/-- Assignments of an entire bond stream, starting from the empty bucket. -/
def bondAssignments (bonds : List (String × ℚ)) : List ((String × ℚ) × (String × ℚ)) :=
  bondAssignmentsAux [] bonds

/-- Embedding of bonds.py _dict_to_summaries: the bucket entries as
BondSummary records, sorted ascending by length (Python's stable sort,
modelled by mergeSort). -/
def dictToSummaries (data : Bucket) : List BondSummary :=
  (data.map fun e => BondSummary.mk e.1.1 e.1.2 e.2).mergeSort
    fun x y => decide (x.length ≤ y.length)

/-- Embedding of bonds.py _count_layers: sort the coordinates along the
vacuum axis, count consecutive gaps exceeding the threshold, add 1. -/
def countLayers (coords : List ℚ) (gapThreshold : ℚ) : ℕ :=
  let sortedCoords := coords.mergeSort fun a b => decide (a ≤ b)
  (((sortedCoords.zip sortedCoords.tail).filter fun p =>
      decide (gapThreshold < p.2 - p.1)).length) + 1

/-- Squared norm of a lattice row.  numpy.argmax of the row norms equals
the argmax of the squared norms (the square root is monotone on
nonnegative values), which keeps the computation rational. -/
def rowNormSq (v : Fin 3 → ℚ) : ℚ :=
  v 0 * v 0 + v 1 * v 1 + v 2 * v 2

/-- Embedding of the vacuum_direction computation of analyze_structure:
numpy.argmax over the lattice row norms, returning the first index
attaining the maximum. -/
def vacuumDirection (lattice : Matrix (Fin 3) (Fin 3) ℚ) : Fin 3 :=
  if rowNormSq (lattice 1) ≤ rowNormSq (lattice 0) then
    (if rowNormSq (lattice 2) ≤ rowNormSq (lattice 0) then 0 else 2)
  else
    (if rowNormSq (lattice 2) ≤ rowNormSq (lattice 1) then 1 else 2)

/-- Embedding of the scaling matrix built by bonds.py _build_supercell:
numpy.diag([3, 3, 3]) with the entire vacuum row then overwritten by
[1, 1, 1]. -/
def buildSupercellScaling (vacuumDir : Fin 3) : Matrix (Fin 3) (Fin 3) ℚ :=
  Matrix.of fun i j => if i = vacuumDir then 1 else if i = j then 3 else 0

/-- Lattice of the supercell produced by _build_supercell: pymatgen's
Structure.make_supercell(M) gives the new lattice M * L (rows of L are
the lattice vectors). -/
def makeSupercellLattice (lattice : Matrix (Fin 3) (Fin 3) ℚ) : Matrix (Fin 3) (Fin 3) ℚ :=
  buildSupercellScaling (vacuumDirection lattice) * lattice

/-- Modelled from the spec wording of claim C2 (for comparison with the
source definition): a 3x3x1 supercell whose lattice is the input lattice
with the two in-plane vectors tripled and the vacuum-axis vector
unchanged. -/
def specSupercellLattice (lattice : Matrix (Fin 3) (Fin 3) ℚ) : Matrix (Fin 3) (Fin 3) ℚ :=
  Matrix.of fun i j => if i = vacuumDirection lattice then lattice i j else 3 * lattice i j

/-- Example lattice for the supercell claims: a slab cell whose long
(vacuum) axis is the third lattice vector. -/
def exampleLattice : Matrix (Fin 3) (Fin 3) ℚ :=
  Matrix.of fun i j =>
    if i = j then (if i = 2 then 10 else 1) else 0

/-- The 4x4x4 example grid of the spec: peaks 1.0 at grid index (0,0,0)
(flat 0), 0.99 at (0,0,1) (flat 1) and 0.98 at (2,2,2) (flat 42), zero
elsewhere; identity lattice, one atom at the origin. -/
def elfExampleGrid444 : ElfContext :=
  { elfData := (List.range 64).map fun i =>
      if i = 0 then 1 else if i = 1 then 99 / 100 else if i = 42 then 49 / 50 else 0
    gridDimensions := [4, 4, 4]
    latticeVectors := [[1, 0, 0], [0, 1, 0], [0, 0, 1]]
    atomicPositionsCart := [[0, 0, 0]] }

/-- A 2x1x1 grid whose two cells sit at fractional coordinates 0 and 1
along the first axis: periodically the same point, so any positive
separation admits only one hotspot. -/
def elfExampleGrid211 : ElfContext :=
  { elfData := [1, 9 / 10]
    gridDimensions := [2, 1, 1]
    latticeVectors := [[1, 0, 0], [0, 1, 0], [0, 0, 1]]
    atomicPositionsCart := [[0, 0, 0]] }

/-- Separation relation recorded by the acceptance test: it is not the
case that the two coordinates are at fractional distance below the
threshold (squared comparison, equivalent to the source's norm
comparison for a nonnegative threshold). -/
def SepRel (minSep : ℚ) (a b : List ℚ) : Prop :=
  ¬(0 < minSep ∧ fracDistSq a b < minSep ^ 2)

/-- The hotspot list built from a list of accepted flat indices, ranks
assigned consecutively from rankStart. -/
def hotspotsFromAux (ctx : ElfContext) : ℕ → List ℕ → List ElfHotspot
  | _, [] => []
  | rankStart, i :: is =>
      mkHotspot ctx rankStart i :: hotspotsFromAux ctx (rankStart + 1) is

/-- The hotspot list built from a list of accepted flat indices, ranks
starting at 1 as in _extract_hotspots. -/
def hotspotsFrom (ctx : ElfContext) (idxs : List ℕ) : List ElfHotspot :=
  hotspotsFromAux ctx 1 idxs

/-- The processed set is exactly the first k entries of the fixed
descending index order. -/
def ProcessedIs (ctx : ElfContext) (st : ExtractState) (k : ℕ) : Prop :=
  ∀ i, i ∈ st.processed ↔ i ∈ (sortedIndices ctx).take k

/-- Core invariant of the extraction state, parameterized by the list of
accepted flat indices in acceptance order: the hotspots and accepted
coordinates are those of the accepted indices, accepted coordinates are
pairwise separated, accepted values are non-increasing and dominate every
unprocessed grid value, and no more than top_n indices are accepted. -/
def ExtractCore (ctx : ElfContext) (topN : ℕ) (minSep : ℚ)
    (st : ExtractState) (idxs : List ℕ) : Prop :=
  st.hotspots = hotspotsFrom ctx idxs ∧
  st.acceptedFrac = idxs.map (fracOfIndex ctx) ∧
  List.Pairwise (fun i j => SepRel minSep (fracOfIndex ctx i) (fracOfIndex ctx j)) idxs ∧
  List.Pairwise (fun i j => ctx.val j ≤ ctx.val i) idxs ∧
  (∀ i, i < ctx.elfData.length → i ∉ st.processed → ∀ j ∈ idxs, ctx.val i ≤ ctx.val j) ∧
  idxs.length ≤ topN

/-- Full invariant: the core invariant holds for some accepted index list,
and the processed set is some prefix of the descending index order. -/
def ExtractInv (ctx : ElfContext) (topN : ℕ) (minSep : ℚ) (st : ExtractState) : Prop :=
  ∃ idxs k, ExtractCore ctx topN minSep st idxs ∧
    k ≤ (sortedIndices ctx).length ∧ ProcessedIs ctx st k

/-- The concrete analysis result of a successful call on the 2x1x1
example grid, used to exhibit a run whose hotspot list is shorter than
the requested top_n. -/
def elfExample211Result : ElfAnalysisResult :=
  ((analyzeElfcarWithHotspots (Except.ok elfExampleGrid211) 2 (3 / 5)).toOption).getD
    { metrics :=
        { max_elf := 0
          max_frac_coord := []
          max_cart_coord := []
          shortestDistanceSq := none
          average_elf := 0 }
      hotspots := [] }

theorem roundHalfEven_ge_floor (q : ℚ) : ⌊q⌋ ≤ roundHalfEven q := by
  unfold roundHalfEven
  split_ifs <;> omega

theorem roundHalfEven_le_floor_add_one (q : ℚ) : roundHalfEven q ≤ ⌊q⌋ + 1 := by
  unfold roundHalfEven
  split_ifs <;> omega

theorem roundHalfEven_sub_abs_le (q : ℚ) : |(roundHalfEven q : ℚ) - q| ≤ 1 / 2 := by
  have h0 : (⌊q⌋ : ℚ) ≤ q := Int.floor_le q
  have h1 : q < (⌊q⌋ : ℚ) + 1 := Int.lt_floor_add_one q
  unfold roundHalfEven
  split_ifs with hc1 hc2 hc3 <;> rw [abs_le] <;> push_cast <;> constructor <;> linarith

theorem roundHalfEven_mono {a b : ℚ} (h : a ≤ b) : roundHalfEven a ≤ roundHalfEven b := by
  rcases lt_or_eq_of_le (Int.floor_le_floor h) with hf | hf
  · calc roundHalfEven a ≤ ⌊a⌋ + 1 := roundHalfEven_le_floor_add_one a
      _ ≤ ⌊b⌋ := by omega
      _ ≤ roundHalfEven b := roundHalfEven_ge_floor b
  · have hr : a - (⌊a⌋ : ℚ) ≤ b - (⌊b⌋ : ℚ) := by
      rw [← hf]; linarith
    unfold roundHalfEven
    split_ifs <;> first
      | omega
      | (exfalso; rw [← hf] at *; linarith)

theorem roundTo_mono (n : ℕ) {a b : ℚ} (h : a ≤ b) : roundTo n a ≤ roundTo n b := by
  have hp : (0 : ℚ) < 10 ^ n := by positivity
  unfold roundTo
  have hm : roundHalfEven (a * 10 ^ n) ≤ roundHalfEven (b * 10 ^ n) :=
    roundHalfEven_mono (mul_le_mul_of_nonneg_right h hp.le)
  have hc : ((roundHalfEven (a * 10 ^ n) : ℚ)) ≤ ((roundHalfEven (b * 10 ^ n) : ℚ)) := by
    exact_mod_cast hm
  exact div_le_div_of_nonneg_right hc hp.le

theorem roundTo_sub_abs_le (n : ℕ) (q : ℚ) : |roundTo n q - q| ≤ 1 / (2 * 10 ^ n) := by
  have hp : (0 : ℚ) < 10 ^ n := by positivity
  have h := roundHalfEven_sub_abs_le (q * 10 ^ n)
  have hrw : roundTo n q - q = ((roundHalfEven (q * 10 ^ n) : ℚ) - q * 10 ^ n) / 10 ^ n := by
    field_simp [roundTo]
    ring
  rw [hrw, abs_div, abs_of_pos hp, div_le_iff₀ hp]
  calc |(roundHalfEven (q * 10 ^ n) : ℚ) - q * 10 ^ n| ≤ 1 / 2 := h
    _ = 1 / (2 * 10 ^ n) * 10 ^ n := by field_simp

theorem fracDistSq_cons (x y : ℚ) (xs ys : List ℚ) :
    fracDistSq (x :: xs) (y :: ys) =
      min |x - y| (1 - |x - y|) * min |x - y| (1 - |x - y|) + fracDistSq xs ys := by
  simp [fracDistSq]

theorem fracDistSq_comm (a b : List ℚ) : fracDistSq a b = fracDistSq b a := by
  induction a generalizing b with
  | nil => cases b <;> simp [fracDistSq]
  | cons x xs ih =>
    cases b with
    | nil => simp [fracDistSq]
    | cons y ys => rw [fracDistSq_cons, fracDistSq_cons, ih, abs_sub_comm]

theorem fracDistSq_nonneg (a b : List ℚ) : 0 ≤ fracDistSq a b := by
  apply List.sum_nonneg
  intro x hx
  obtain ⟨p, _, hp⟩ := List.mem_map.mp hx
  rw [← hp]
  exact mul_self_nonneg _

theorem fracDist_comm (a b : List ℚ) : fracDist a b = fracDist b a := by
  unfold fracDist
  rw [fracDistSq_comm]

theorem sepRel_dist {minSep : ℚ} (h2 : 0 ≤ minSep) {a b : List ℚ}
    (h : SepRel minSep a b) : (minSep : ℝ) ≤ fracDist a b := by
  rcases eq_or_lt_of_le h2 with h0 | h0
  · rw [← h0]
    push_cast
    exact Real.sqrt_nonneg _
  · have hge : minSep ^ 2 ≤ fracDistSq a b := by
      by_contra hlt
      exact h ⟨h0, not_le.mp hlt⟩
    have hge' : ((minSep : ℝ)) ^ 2 ≤ ((fracDistSq a b : ℚ) : ℝ) := by
      exact_mod_cast hge
    calc (minSep : ℝ) = Real.sqrt ((minSep : ℝ) ^ 2) := by
          rw [Real.sqrt_sq (by exact_mod_cast h2)]
      _ ≤ fracDist a b := Real.sqrt_le_sqrt hge'

theorem isFarEnough_spec {cand : List ℚ} {accepted : List (List ℚ)} {minSep : ℚ}
    (h : isFarEnoughFrac cand accepted minSep = true) :
    ∀ e ∈ accepted, SepRel minSep cand e := by
  intro e he
  simp only [isFarEnoughFrac, List.all_eq_true] at h
  have h' := h e he
  simp only [ltSqrtQ, Bool.not_eq_true', decide_eq_false_iff_not] at h'
  exact h'

theorem idxLe_trans (ctx : ElfContext) (a b c : ℕ)
    (h1 : idxLe ctx a b = true) (h2 : idxLe ctx b c = true) : idxLe ctx a c = true := by
  simp only [idxLe, decide_eq_true_eq] at *
  rcases h1 with h1 | ⟨h1e, h1i⟩ <;> rcases h2 with h2 | ⟨h2e, h2i⟩
  · exact Or.inl (h2.trans h1)
  · exact Or.inl (h2e ▸ h1)
  · exact Or.inl (h1e ▸ h2)
  · exact Or.inr ⟨h1e.trans h2e, h1i.trans h2i⟩

theorem idxLe_total (ctx : ElfContext) (a b : ℕ) :
    (idxLe ctx a b || idxLe ctx b a) = true := by
  simp only [idxLe, Bool.or_eq_true, decide_eq_true_eq]
  rcases lt_trichotomy (ctx.val a) (ctx.val b) with h | h | h
  · exact Or.inr (Or.inl h)
  · rcases Nat.le_total a b with hi | hi
    · exact Or.inl (Or.inr ⟨h, hi⟩)
    · exact Or.inr (Or.inr ⟨h.symm, hi⟩)
  · exact Or.inl (Or.inl h)

theorem sortedIndices_perm (ctx : ElfContext) :
    (sortedIndices ctx).Perm (List.range ctx.elfData.length) :=
  List.mergeSort_perm _ _

theorem sortedIndices_nodup (ctx : ElfContext) : (sortedIndices ctx).Nodup :=
  ((sortedIndices_perm ctx).symm).nodup (List.nodup_range _)

theorem sortedIndices_length (ctx : ElfContext) :
    (sortedIndices ctx).length = ctx.elfData.length := by
  rw [(sortedIndices_perm ctx).length_eq, List.length_range]

theorem mem_sortedIndices (ctx : ElfContext) {i : ℕ} :
    i ∈ sortedIndices ctx ↔ i < ctx.elfData.length := by
  rw [(sortedIndices_perm ctx).mem_iff, List.mem_range]

theorem sortedIndices_pairwise_val (ctx : ElfContext) :
    List.Pairwise (fun i j => ctx.val j ≤ ctx.val i) (sortedIndices ctx) := by
  have hs := List.sorted_mergeSort (idxLe_trans ctx) (idxLe_total ctx)
    (List.range ctx.elfData.length)
  refine hs.imp ?_
  intro a b hab
  simp only [idxLe, decide_eq_true_eq] at hab
  rcases hab with h | ⟨h, _⟩
  · exact h.le
  · exact h.ge

theorem sortedIndices_dominated (ctx : ElfContext) {a : ℕ}
    (ha : a < (sortedIndices ctx).length) :
    ∀ i ∈ (sortedIndices ctx).drop (a + 1),
      ctx.val i ≤ ctx.val ((sortedIndices ctx).get ⟨a, ha⟩) := by
  intro i hi
  have hpw := sortedIndices_pairwise_val ctx
  rw [← List.take_append_drop (a + 1) (sortedIndices ctx), List.pairwise_append] at hpw
  have hmem : (sortedIndices ctx).get ⟨a, ha⟩ ∈ (sortedIndices ctx).take (a + 1) := by
    have hlen : a < ((sortedIndices ctx).take (a + 1)).length := by
      rw [List.length_take]
      omega
    have h1 : ((sortedIndices ctx).take (a + 1))[a] = (sortedIndices ctx)[a] :=
      List.getElem_take _
    have h2 : (sortedIndices ctx).get ⟨a, ha⟩ = ((sortedIndices ctx).take (a + 1))[a] := by
      rw [h1]
      simp [List.get_eq_getElem]
    rw [h2]
    exact List.getElem_mem hlen
  exact hpw.2.2 _ hmem i hi

theorem hotspotsFromAux_length (ctx : ElfContext) (r : ℕ) (idxs : List ℕ) :
    (hotspotsFromAux ctx r idxs).length = idxs.length := by
  induction idxs generalizing r with
  | nil => rfl
  | cons i is ih => simp [hotspotsFromAux, ih]

theorem hotspotsFrom_length (ctx : ElfContext) (idxs : List ℕ) :
    (hotspotsFrom ctx idxs).length = idxs.length :=
  hotspotsFromAux_length ctx 1 idxs

theorem hotspotsFromAux_append_singleton (ctx : ElfContext) (r : ℕ) (idxs : List ℕ) (x : ℕ) :
    hotspotsFromAux ctx r (idxs ++ [x]) =
      hotspotsFromAux ctx r idxs ++ [mkHotspot ctx (r + idxs.length) x] := by
  induction idxs generalizing r with
  | nil => simp [hotspotsFromAux]
  | cons i is ih =>
    have harg : r + 1 + is.length = r + (is.length + 1) := by omega
    calc hotspotsFromAux ctx r ((i :: is) ++ [x])
        = mkHotspot ctx r i :: hotspotsFromAux ctx (r + 1) (is ++ [x]) := rfl
      _ = mkHotspot ctx r i ::
            (hotspotsFromAux ctx (r + 1) is ++ [mkHotspot ctx (r + 1 + is.length) x]) := by
          rw [ih]
      _ = hotspotsFromAux ctx r (i :: is) ++ [mkHotspot ctx (r + (i :: is).length) x] := by
          rw [harg]
          simp [hotspotsFromAux]

theorem hotspotsFrom_append_singleton (ctx : ElfContext) (idxs : List ℕ) (x : ℕ) :
    hotspotsFrom ctx (idxs ++ [x]) =
      hotspotsFrom ctx idxs ++ [mkHotspot ctx (idxs.length + 1) x] := by
  rw [hotspotsFrom, hotspotsFromAux_append_singleton]
  congr 3
  omega

theorem hotspotsFromAux_map_rank (ctx : ElfContext) (r : ℕ) (idxs : List ℕ) :
    (hotspotsFromAux ctx r idxs).map (fun h => h.rank) = List.range' r idxs.length := by
  induction idxs generalizing r with
  | nil => rfl
  | cons i is ih => simp [hotspotsFromAux, mkHotspot, List.range'_succ, ih]

theorem hotspotsFromAux_map_value (ctx : ElfContext) (r : ℕ) (idxs : List ℕ) :
    (hotspotsFromAux ctx r idxs).map (fun h => h.elf_value) =
      idxs.map fun i => roundTo 5 (ctx.val i) := by
  induction idxs generalizing r with
  | nil => rfl
  | cons i is ih => simp [hotspotsFromAux, mkHotspot, ih]

theorem hotspotsFromAux_map_frac (ctx : ElfContext) (r : ℕ) (idxs : List ℕ) :
    (hotspotsFromAux ctx r idxs).map (fun h => h.frac_coord) =
      idxs.map fun i => (fracOfIndex ctx i).map (roundTo 5) := by
  induction idxs generalizing r with
  | nil => rfl
  | cons i is ih => simp [hotspotsFromAux, mkHotspot, ih]

theorem passStep_of_full {ctx : ElfContext} {topN : ℕ} {minSep : ℚ}
    {st : ExtractState} (h : topN ≤ st.hotspots.length) (i : ℕ) :
    passStep ctx topN minSep st i = st := by
  simp [passStep, h]

theorem passStep_of_processed {ctx : ElfContext} {topN : ℕ} {minSep : ℚ}
    {st : ExtractState} {i : ℕ} (h : i ∈ st.processed) :
    passStep ctx topN minSep st i = st := by
  unfold passStep
  split_ifs <;> simp_all

theorem passStep_reject {ctx : ElfContext} {topN : ℕ} {minSep : ℚ}
    {st : ExtractState} {i : ℕ} (h1 : ¬topN ≤ st.hotspots.length)
    (h2 : i ∉ st.processed)
    (h3 : ¬isFarEnoughFrac (fracOfIndex ctx i) st.acceptedFrac minSep = true) :
    passStep ctx topN minSep st i = { st with processed := i :: st.processed } := by
  simp [passStep, h1, h2, h3]

theorem passStep_accept {ctx : ElfContext} {topN : ℕ} {minSep : ℚ}
    {st : ExtractState} {i : ℕ} (h1 : ¬topN ≤ st.hotspots.length)
    (h2 : i ∉ st.processed)
    (h3 : isFarEnoughFrac (fracOfIndex ctx i) st.acceptedFrac minSep = true) :
    passStep ctx topN minSep st i =
      { processed := i :: st.processed
        acceptedFrac := st.acceptedFrac ++ [fracOfIndex ctx i]
        hotspots := st.hotspots ++ [mkHotspot ctx (st.hotspots.length + 1) i] } := by
  simp [passStep, h1, h2, h3]

theorem foldl_passStep_of_full {ctx : ElfContext} {topN : ℕ} {minSep : ℚ}
    {st : ExtractState} (h : topN ≤ st.hotspots.length) (l : List ℕ) :
    List.foldl (passStep ctx topN minSep) st l = st := by
  induction l with
  | nil => rfl
  | cons i is ih => rw [List.foldl_cons, passStep_of_full h, ih]

theorem foldl_passStep_of_processed {ctx : ElfContext} {topN : ℕ} {minSep : ℚ}
    {st : ExtractState} {l : List ℕ} (h : ∀ i ∈ l, i ∈ st.processed) :
    List.foldl (passStep ctx topN minSep) st l = st := by
  induction l with
  | nil => rfl
  | cons i is ih =>
    rw [List.foldl_cons, passStep_of_processed (h i (by simp))]
    exact ih fun j hj => h j (by simp [hj])

theorem sepRel_symm {minSep : ℚ} {a b : List ℚ} (h : SepRel minSep a b) :
    SepRel minSep b a := by
  unfold SepRel at *
  rw [fracDistSq_comm b a]
  exact h

theorem sortedIndices_take_succ (ctx : ElfContext) {a : ℕ}
    (ha : a < (sortedIndices ctx).length) :
    (sortedIndices ctx).take (a + 1) =
      (sortedIndices ctx).take a ++ [(sortedIndices ctx).get ⟨a, ha⟩] := by
  rw [List.take_succ, List.getElem?_eq_getElem ha]
  rfl

theorem sortedIndices_getElem_notMem_take (ctx : ElfContext) {a : ℕ}
    (ha : a < (sortedIndices ctx).length) :
    (sortedIndices ctx).get ⟨a, ha⟩ ∉ (sortedIndices ctx).take a := by
  intro hmem
  have hnd : ((sortedIndices ctx).take (a + 1)).Nodup :=
    (List.take_sublist _ _).nodup (sortedIndices_nodup ctx)
  rw [sortedIndices_take_succ ctx ha, List.nodup_append] at hnd
  exact hnd.2.2 hmem (by simp)

theorem processedIs_cons (ctx : ElfContext) {st : ExtractState} {a : ℕ}
    (ha : a < (sortedIndices ctx).length) (hp : ProcessedIs ctx st a) :
    ∀ i, i ∈ (sortedIndices ctx).get ⟨a, ha⟩ :: st.processed ↔
      i ∈ (sortedIndices ctx).take (a + 1) := by
  intro i
  rw [List.mem_cons, hp i, sortedIndices_take_succ ctx ha, List.mem_append]
  simp [or_comm]

theorem mem_drop_of_not_mem_take (ctx : ElfContext) {i a : ℕ}
    (hiN : i < ctx.elfData.length) (hnt : i ∉ (sortedIndices ctx).take (a + 1)) :
    i ∈ (sortedIndices ctx).drop (a + 1) := by
  have hiS : i ∈ sortedIndices ctx := (mem_sortedIndices ctx).mpr hiN
  rw [← List.take_append_drop (a + 1) (sortedIndices ctx), List.mem_append] at hiS
  exact hiS.resolve_left hnt

theorem foldl_passStep_seg (ctx : ElfContext) (topN : ℕ) (minSep : ℚ) :
    ∀ (b a : ℕ) (st : ExtractState) (idxs : List ℕ),
      ExtractCore ctx topN minSep st idxs →
      ProcessedIs ctx st a →
      a ≤ (sortedIndices ctx).length →
      ExtractInv ctx topN minSep
        (List.foldl (passStep ctx topN minSep) st
          (((sortedIndices ctx).drop a).take b)) := by
  intro b
  induction b with
  | zero =>
    intro a st idxs hcore hproc haN
    simpa using ⟨idxs, a, hcore, haN, hproc⟩
  | succ b ih =>
    intro a st idxs hcore hproc haN
    by_cases hfull : topN ≤ st.hotspots.length
    · rw [foldl_passStep_of_full hfull]
      exact ⟨idxs, a, hcore, haN, hproc⟩
    by_cases haN' : (sortedIndices ctx).length ≤ a
    · rw [List.drop_eq_nil_of_le haN']
      simpa using ⟨idxs, a, hcore, haN, hproc⟩
    push_neg at haN'
    obtain ⟨hhot, hacc, hsep, hvals, hdom, hlen⟩ := hcore
    have hdropS : (sortedIndices ctx).drop a =
        (sortedIndices ctx)[a] :: (sortedIndices ctx).drop (a + 1) :=
      List.drop_eq_getElem_cons haN'
    have hget : (sortedIndices ctx).get ⟨a, haN'⟩ = (sortedIndices ctx)[a] := rfl
    have hnm : (sortedIndices ctx)[a] ∉ st.processed := by
      intro hmem
      exact sortedIndices_getElem_notMem_take ctx haN' ((hproc _).mp hmem)
    have hi0N : (sortedIndices ctx)[a] < ctx.elfData.length :=
      (mem_sortedIndices ctx).mp (List.getElem_mem haN')
    rw [hdropS, List.take_succ_cons, List.foldl_cons]
    by_cases hfar :
        isFarEnoughFrac (fracOfIndex ctx ((sortedIndices ctx)[a])) st.acceptedFrac minSep = true
    · -- accepted: the index is appended to the accepted list and hotspots
      rw [passStep_accept hfull hnm hfar]
      refine ih (a + 1) _ (idxs ++ [(sortedIndices ctx)[a]]) ?_ ?_ (by omega)
      · refine ⟨?_, ?_, ?_, ?_, ?_, ?_⟩
        · show st.hotspots ++ [mkHotspot ctx (st.hotspots.length + 1) _] = _
          rw [hhot, hotspotsFrom_length, hotspotsFrom_append_singleton]
        · show st.acceptedFrac ++ [fracOfIndex ctx _] = _
          rw [hacc, List.map_append, List.map_singleton]
        · rw [List.pairwise_append]
          refine ⟨hsep, List.pairwise_singleton _ _, ?_⟩
          intro x hx y hy
          rw [List.mem_singleton] at hy
          subst hy
          apply sepRel_symm
          apply isFarEnough_spec hfar
          rw [hacc]
          exact List.mem_map_of_mem _ hx
        · rw [List.pairwise_append]
          refine ⟨hvals, List.pairwise_singleton _ _, ?_⟩
          intro x hx y hy
          rw [List.mem_singleton] at hy
          subst hy
          exact hdom _ hi0N hnm x hx
        · intro i hiN hip j hj
          simp only [ExtractState.processed] at hip
          rw [List.mem_cons] at hip
          push_neg at hip
          rw [List.mem_append] at hj
          rcases hj with hj | hj
          · exact hdom i hiN hip.2 j hj
          · rw [List.mem_singleton] at hj
            subst hj
            have hint : i ∉ (sortedIndices ctx).take (a + 1) := by
              rw [sortedIndices_take_succ ctx haN', List.mem_append]
              push_neg
              refine ⟨fun hmem => hip.2 ((hproc i).mpr hmem), ?_⟩
              simp [hget, hip.1]
            have := sortedIndices_dominated ctx haN' i
              (mem_drop_of_not_mem_take ctx hiN hint)
            rwa [hget] at this
        · rw [List.length_append, List.length_singleton]
          rw [hhot, hotspotsFrom_length] at hfull
          omega
      · intro i
        have := processedIs_cons ctx haN' hproc i
        rwa [hget] at this
    · -- rejected by the separation test: only the processed set grows
      rw [passStep_reject hfull hnm hfar]
      refine ih (a + 1) _ idxs ⟨hhot, hacc, hsep, hvals, ?_, hlen⟩ ?_ (by omega)
      · intro i hiN hip j hj
        simp only [ExtractState.processed] at hip
        rw [List.mem_cons] at hip
        push_neg at hip
        exact hdom i hiN hip.2 j hj
      · intro i
        have := processedIs_cons ctx haN' hproc i
        rwa [hget] at this

theorem foldl_passStep_take (ctx : ElfContext) (topN : ℕ) (minSep : ℚ)
    (cc a : ℕ) (st : ExtractState) (idxs : List ℕ)
    (hcore : ExtractCore ctx topN minSep st idxs)
    (hproc : ProcessedIs ctx st a) (haN : a ≤ (sortedIndices ctx).length) :
    ExtractInv ctx topN minSep
      (List.foldl (passStep ctx topN minSep) st ((sortedIndices ctx).take cc)) := by
  rcases le_or_lt cc a with hca | hca
  · rw [foldl_passStep_of_processed ?_]
    · exact ⟨idxs, a, hcore, haN, hproc⟩
    · intro i hi
      apply (hproc i).mpr
      have : (sortedIndices ctx).take cc = ((sortedIndices ctx).take a).take cc := by
        rw [List.take_take, min_eq_left hca]
      rw [this] at hi
      exact List.take_subset _ _ hi
  · have hsplit : (sortedIndices ctx).take cc =
        (sortedIndices ctx).take a ++ ((sortedIndices ctx).drop a).take (cc - a) := by
      have hta := List.take_add (sortedIndices ctx) a (cc - a)
      rw [show a + (cc - a) = cc by omega] at hta
      exact hta
    have hskip : List.foldl (passStep ctx topN minSep) st ((sortedIndices ctx).take a) = st :=
      foldl_passStep_of_processed fun i hi => (hproc i).mpr hi
    rw [hsplit, List.foldl_append, hskip]
    exact foldl_passStep_seg ctx topN minSep (cc - a) a st idxs hcore hproc haN

theorem extractLoop_inv (ctx : ElfContext) (topN : ℕ) (minSep : ℚ) :
    ∀ (fuel cc : ℕ) (st : ExtractState), ExtractInv ctx topN minSep st →
      ExtractInv ctx topN minSep (extractLoop ctx topN minSep fuel cc st) := by
  intro fuel
  induction fuel with
  | zero => intro cc st h; exact h
  | succ fuel ih =>
    intro cc st h
    obtain ⟨idxs, k, hcore, hkN, hproc⟩ := h
    have hst' : ExtractInv ctx topN minSep (runPass ctx topN minSep st cc) :=
      foldl_passStep_take ctx topN minSep cc k st idxs hcore hproc hkN
    rw [extractLoop]
    by_cases h1 : topN ≤ st.hotspots.length
    · rw [if_pos h1]
      exact ⟨idxs, k, hcore, hkN, hproc⟩
    · rw [if_neg h1]
      show ExtractInv ctx topN minSep
        (if topN ≤ (runPass ctx topN minSep st cc).hotspots.length then
          runPass ctx topN minSep st cc
        else if ctx.elfData.length ≤ cc then runPass ctx topN minSep st cc
        else extractLoop ctx topN minSep fuel (min ctx.elfData.length (cc * 2))
          (runPass ctx topN minSep st cc))
      split_ifs with h2 h3
      · exact hst'
      · exact hst'
      · exact ih _ _ hst'

theorem extractState_inv (ctx : ElfContext) (topN : ℕ) (minSep : ℚ) :
    ExtractInv ctx topN minSep (extractState ctx topN minSep) := by
  have hinit : ExtractInv ctx topN minSep initExtractState := by
    refine ⟨[], 0, ⟨rfl, rfl, List.Pairwise.nil, List.Pairwise.nil, ?_, by simp⟩, by simp, ?_⟩
    · intro i _ _ j hj
      simp at hj
    · intro i
      simp [initExtractState, ProcessedIs]
  unfold extractState
  split_ifs with h
  · exact hinit
  · exact extractLoop_inv ctx topN minSep _ _ _ hinit

theorem extractHotspots_core (ctx : ElfContext) (topN : ℕ) (minSep : ℚ) :
    ∃ idxs, ExtractCore ctx topN minSep (extractState ctx topN minSep) idxs := by
  obtain ⟨idxs, _, hcore, _, _⟩ := extractState_inv ctx topN minSep
  exact ⟨idxs, hcore⟩

theorem extractHotspots_length_le (ctx : ElfContext) (topN : ℕ) (minSep : ℚ) :
    (extractHotspots ctx topN minSep).length ≤ topN := by
  obtain ⟨idxs, hhot, _, _, _, _, hlen⟩ := extractHotspots_core ctx topN minSep
  rw [extractHotspots, hhot, hotspotsFrom_length]
  exact hlen

theorem extractHotspots_ranks (ctx : ElfContext) (topN : ℕ) (minSep : ℚ) :
    (extractHotspots ctx topN minSep).map (fun h => h.rank) =
      List.range' 1 (extractHotspots ctx topN minSep).length := by
  obtain ⟨idxs, hhot, _⟩ := extractHotspots_core ctx topN minSep
  rw [extractHotspots, hhot, hotspotsFrom, hotspotsFromAux_map_rank,
    hotspotsFromAux_length]

theorem extractHotspots_values_antitone (ctx : ElfContext) (topN : ℕ) (minSep : ℚ) :
    List.Pairwise (fun a b => b ≤ a)
      ((extractHotspots ctx topN minSep).map fun h => h.elf_value) := by
  obtain ⟨idxs, hhot, _, _, hvals, _, _⟩ := extractHotspots_core ctx topN minSep
  rw [extractHotspots, hhot, hotspotsFrom, hotspotsFromAux_map_value]
  rw [List.pairwise_map]
  exact hvals.imp fun hab => roundTo_mono 5 hab

theorem extractState_accepted_sep (ctx : ElfContext) (topN : ℕ) {minSep : ℚ}
    (h2 : 0 ≤ minSep) :
    List.Pairwise (fun a b => (minSep : ℝ) ≤ fracDist a b)
      (extractState ctx topN minSep).acceptedFrac := by
  obtain ⟨idxs, _, hacc, hsep, _⟩ := extractHotspots_core ctx topN minSep
  rw [hacc, List.pairwise_map]
  exact hsep.imp fun hab => sepRel_dist h2 hab

theorem extractHotspots_frac_corr (ctx : ElfContext) (topN : ℕ) (minSep : ℚ) :
    (extractHotspots ctx topN minSep).map (fun h => h.frac_coord) =
      (extractState ctx topN minSep).acceptedFrac.map fun c => c.map (roundTo 5) := by
  obtain ⟨idxs, hhot, hacc, _⟩ := extractHotspots_core ctx topN minSep
  rw [extractHotspots, hhot, hacc, hotspotsFrom, hotspotsFromAux_map_frac, List.map_map]
  rfl

/-- C1: for every ELF grid, top_n >= 1 and min_separation_frac >= 0, the
accepted hotspot locations of _extract_hotspots are pairwise at periodic
fractional distance (per-axis wrap, Euclidean norm) >= min_separation_frac,
and the stored frac_coord fields are exactly those locations rounded to 5
decimals; on the 4x4x4 example grid with peaks 1.0/0.99/0.98, top_n = 2
with min_separation_frac = 0.4 returns hotspots with elf_values
[1.0, 0.98]. -/
theorem claim_hotspot_min_separation (ctx : ElfContext) (topN : ℕ) (minSep : ℚ)
    (h1 : 1 ≤ topN) (h2 : 0 ≤ minSep) :
    List.Pairwise (fun a b => (minSep : ℝ) ≤ fracDist a b)
      (extractState ctx topN minSep).acceptedFrac ∧
    (extractHotspots ctx topN minSep).map (fun h => h.frac_coord) =
      ((extractState ctx topN minSep).acceptedFrac.map fun c => c.map (roundTo 5)) ∧
    (extractHotspots elfExampleGrid444 2 (2 / 5)).map (fun h => h.elf_value) =
      [1, 49 / 50] :=
  ⟨extractState_accepted_sep ctx topN h2, extractHotspots_frac_corr ctx topN minSep,
    by with_unfolding_all decide⟩

/-- Witness for C1 at the 4x4x4 example grid with top_n = 2 and
min_separation_frac = 2/5. -/
theorem claim_hotspot_min_separation_witness :
    (1 ≤ 2 ∧ (0 : ℚ) ≤ 2 / 5) ∧
    (List.Pairwise (fun a b => (((2 : ℚ) / 5 : ℚ) : ℝ) ≤ fracDist a b)
        (extractState elfExampleGrid444 2 (2 / 5)).acceptedFrac ∧
      (extractHotspots elfExampleGrid444 2 (2 / 5)).map (fun h => h.frac_coord) =
        ((extractState elfExampleGrid444 2 (2 / 5)).acceptedFrac.map fun c =>
          c.map (roundTo 5)) ∧
      (extractHotspots elfExampleGrid444 2 (2 / 5)).map (fun h => h.elf_value) =
        [1, 49 / 50]) :=
  ⟨⟨by norm_num, by norm_num⟩,
    claim_hotspot_min_separation elfExampleGrid444 2 (2 / 5) (by norm_num) (by norm_num)⟩

/-- C4: for every grid and valid top_n and min_separation_frac, the
hotspot ranks are the contiguous list 1, 2, ... (strictly increasing in
list order) and the stored elf_values are non-increasing, across the
adaptive pool-widening passes. -/
theorem claim_hotspot_ranks_values (ctx : ElfContext) (topN : ℕ) (minSep : ℚ)
    (h1 : 1 ≤ topN) (h2 : 0 ≤ minSep) :
    (extractHotspots ctx topN minSep).map (fun h => h.rank) =
      List.range' 1 (extractHotspots ctx topN minSep).length ∧
    List.Pairwise (fun a b => b ≤ a)
      ((extractHotspots ctx topN minSep).map fun h => h.elf_value) :=
  ⟨extractHotspots_ranks ctx topN minSep, extractHotspots_values_antitone ctx topN minSep⟩

/-- Witness for C4 at the 4x4x4 example grid. -/
theorem claim_hotspot_ranks_values_witness :
    (1 ≤ 2 ∧ (0 : ℚ) ≤ 2 / 5) ∧
    ((extractHotspots elfExampleGrid444 2 (2 / 5)).map (fun h => h.rank) =
      List.range' 1 (extractHotspots elfExampleGrid444 2 (2 / 5)).length ∧
    List.Pairwise (fun a b => b ≤ a)
      ((extractHotspots elfExampleGrid444 2 (2 / 5)).map fun h => h.elf_value)) :=
  ⟨⟨by norm_num, by norm_num⟩,
    claim_hotspot_ranks_values elfExampleGrid444 2 (2 / 5) (by norm_num) (by norm_num)⟩

/-- C3 counterexample: on the 2x1x1 grid whose two cells are periodically
the same point, analyze_elfcar_with_hotspots with top_n = 2 and
min_separation_frac = 3/5 returns successfully with only 1 hotspot, so the
returned length is not exactly the requested top_n. -/
theorem claim_hotspot_count_counterexample :
    ((analyzeElfcarWithHotspots (Except.ok elfExampleGrid211) 2 (3 / 5)).toOption).map
        (fun r => r.hotspots.length) = some 1 ∧ (1 : ℕ) ≠ 2 := by
  with_unfolding_all decide

/-- C3 amended: whenever analyze_elfcar_with_hotspots returns successfully,
the hotspot sequence has length between 1 and the requested top_n
(it can fall short when the separation constraint rejects all remaining
candidates), ordered highest elf_value first. -/
theorem claim_hotspot_count_bounds (load : Except String ElfContext) (topN : ℤ)
    (minSep : ℚ) (r : ElfAnalysisResult)
    (h : analyzeElfcarWithHotspots load topN minSep = Except.ok r) :
    1 ≤ r.hotspots.length ∧ r.hotspots.length ≤ topN.toNat ∧
    List.Pairwise (fun a b => b ≤ a) (r.hotspots.map fun x => x.elf_value) := by
  unfold analyzeElfcarWithHotspots at h
  by_cases h1 : topN < 1
  · rw [if_pos h1] at h
    simp at h
  rw [if_neg h1] at h
  by_cases h2 : minSep < 0
  · rw [if_pos h2] at h
    simp at h
  rw [if_neg h2] at h
  cases load with
  | error msg => simp at h
  | ok ctx =>
    dsimp only at h
    cases hext : extractHotspots ctx topN.toNat minSep with
    | nil =>
      rw [hext] at h
      simp at h
    | cons top rest =>
      rw [hext] at h
      simp only [Except.ok.injEq] at h
      subst h
      refine ⟨by simp, ?_, ?_⟩
      · show (top :: rest).length ≤ topN.toNat
        rw [← hext]
        exact extractHotspots_length_le ctx topN.toNat minSep
      · show List.Pairwise _ ((top :: rest).map fun x => x.elf_value)
        rw [← hext]
        exact extractHotspots_values_antitone ctx topN.toNat minSep

/-- Witness for the amended C3 at a concrete successful call. -/
theorem claim_hotspot_count_bounds_witness :
    1 ≤ elfExample211Result.hotspots.length ∧
    elfExample211Result.hotspots.length ≤ (2 : ℤ).toNat ∧
    List.Pairwise (fun a b => b ≤ a)
      (elfExample211Result.hotspots.map fun x => x.elf_value) :=
  claim_hotspot_count_bounds (Except.ok elfExampleGrid211) 2 (3 / 5) elfExample211Result
    (by with_unfolding_all rfl)

/-- C5: with top_n < 1 or min_separation_frac < 0,
analyze_elfcar_with_hotspots fails with a ValueError before the ELFCAR
file is consulted: the result is the same ValueError whatever the load
outcome is, so no grid or structure computation and no partial result
can occur. -/
theorem claim_validation_fail_fast (load load' : Except String ElfContext)
    (topN : ℤ) (minSep : ℚ) (h : topN < 1 ∨ minSep < 0) :
    (∃ msg, analyzeElfcarWithHotspots load topN minSep =
      Except.error (AnalysisError.valueError msg)) ∧
    analyzeElfcarWithHotspots load topN minSep =
      analyzeElfcarWithHotspots load' topN minSep := by
  by_cases h1 : topN < 1
  · refine ⟨⟨"top_n must be >= 1", ?_⟩, ?_⟩ <;>
      simp [analyzeElfcarWithHotspots, h1]
  · have h2 : minSep < 0 := h.resolve_left h1
    refine ⟨⟨"min_separation_frac must be >= 0", ?_⟩, ?_⟩ <;>
      simp [analyzeElfcarWithHotspots, h1, h2]

/-- Witness for C5: top_n = 0 gives the same ValueError on a failing load
and on a fully loaded grid. -/
theorem claim_validation_fail_fast_witness :
    ((0 : ℤ) < 1 ∨ (1 / 2 : ℚ) < 0) ∧
    ((∃ msg, analyzeElfcarWithHotspots (Except.error ("io")) 0 (1 / 2) =
      Except.error (AnalysisError.valueError msg)) ∧
    analyzeElfcarWithHotspots (Except.error ("io")) 0 (1 / 2) =
      analyzeElfcarWithHotspots (Except.ok elfExampleGrid211) 0 (1 / 2)) :=
  ⟨Or.inl (by norm_num),
    claim_validation_fail_fast (Except.error ("io")) (Except.ok elfExampleGrid211) 0 (1 / 2)
      (Or.inl (by norm_num))⟩

/-- C6 counterexample: on the repository's own test input, the singleton
axis (size 1, index 0) is mapped to fractional coordinate 0, not 1.0 as
the claim states. -/
theorem claim_singleton_axis_counterexample :
    (indexToFrac [0, 3, 1] [1, 5, 2]).getD 0 0 = 0 ∧ ((0 : ℚ) ≠ 1) := by
  with_unfolding_all decide

/-- C6 amended: _index_to_frac never divides by zero on a singleton axis
(the denominator falls back to 1), and the fractional coordinate produced
there equals the index value itself, hence 0.0 for the only valid index 0
(not 1.0). -/
theorem claim_singleton_axis_frac (index dims : List ℕ) (j : ℕ)
    (hj1 : j < index.length) (hj2 : j < dims.length) (hdim : dims.getD j 0 = 1) :
    (indexToFrac index dims).getD j 0 = (index.getD j 0 : ℚ) ∧
    (index.getD j 0 < dims.getD j 0 → (indexToFrac index dims).getD j 0 = 0) := by
  have hjz : j < (index.zip dims).length := by
    rw [List.length_zip]
    omega
  have hlen : j < (indexToFrac index dims).length := by
    rw [indexToFrac, List.length_map]
    exact hjz
  have hd1 : dims[j] = 1 := by
    rw [← List.getD_eq_getElem dims 0 hj2]
    exact hdim
  have helem : (indexToFrac index dims).getD j 0 = (index[j] : ℚ) := by
    rw [List.getD_eq_getElem _ 0 hlen]
    simp only [indexToFrac, List.getElem_map, List.getElem_zip, hd1]
    norm_num
  constructor
  · rw [helem, List.getD_eq_getElem index 0 hj1]
  · intro hlt
    rw [List.getD_eq_getElem index 0 hj1, List.getD_eq_getElem dims 0 hj2, hd1,
      Nat.lt_one_iff] at hlt
    rw [helem, hlt]
    norm_num

/-- Witness for the amended C6 on a one-axis grid of size 1. -/
theorem claim_singleton_axis_frac_witness :
    (0 < ([0] : List ℕ).length ∧ 0 < ([1] : List ℕ).length ∧
      ([1] : List ℕ).getD 0 0 = 1) ∧
    ((indexToFrac [0] [1]).getD 0 0 = ((([0] : List ℕ).getD 0 0 : ℕ) : ℚ) ∧
      (([0] : List ℕ).getD 0 0 < ([1] : List ℕ).getD 0 0 →
        (indexToFrac [0] [1]).getD 0 0 = 0)) :=
  ⟨⟨by decide, by decide, by decide⟩,
    claim_singleton_axis_frac [0] [1] 0 (by decide) (by decide) (by decide)⟩

/-- C9: the periodic fractional distance is symmetric in its two
arguments, and wraps at the boundary: the distance between
(0.98, 0.02, 0.50) and (0.01, 0.98, 0.50) is sqrt(0.03^2 + 0.04^2) = 0.05. -/
theorem claim_fractional_distance_symm_wrap :
    (∀ a b : List ℚ, fracDist a b = fracDist b a) ∧
    fracDist [49 / 50, 1 / 50, 1 / 2] [1 / 100, 49 / 50, 1 / 2] = 0.05 := by
  constructor
  · exact fracDist_comm
  · have hq : fracDistSq [49 / 50, 1 / 50, 1 / 2] [1 / 100, 49 / 50, 1 / 2] = 1 / 400 := by
      with_unfolding_all decide
    unfold fracDist
    rw [hq, show (((1 : ℚ) / 400 : ℚ) : ℝ) = (0.05 : ℝ) ^ 2 by norm_num]
    exact Real.sqrt_sq (by norm_num)

/-- C10: _count_layers on a structure with no sites counts zero gaps and
returns 1 (it neither returns 0 nor rejects the input). -/
theorem claim_count_layers_empty : ∀ gapThreshold : ℚ, countLayers [] gapThreshold = 1 := by
  intro g
  simp [countLayers]

theorem find_key_of_nodup {bucket : Bucket} {e : (String × ℚ) × ℕ}
    (hnd : (bucket.map fun x => x.1).Nodup) (he : e ∈ bucket) :
    bucket.find? (fun x => x.1 == e.1) = some e := by
  induction bucket with
  | nil => cases he
  | cons b bs ih =>
    rw [List.map_cons, List.nodup_cons] at hnd
    rcases List.mem_cons.mp he with he1 | he2
    · subst he1
      exact List.find?_cons_of_pos _ (beq_self_eq_true _)
    · have hne : (b.1 == e.1) = false := by
        rw [beq_eq_false_iff_ne]
        intro heq
        exact hnd.1 (heq ▸ List.mem_map_of_mem _ he2)
      rw [List.find?_cons_of_neg _ (by simp [hne])]
      exact ih hnd.2 he2

theorem resolveBondKey_close (bucket : Bucket) (t : String) (l : ℚ) :
    |(resolveBondKey bucket t l bondTolerance).2 - l| ≤ bondTolerance := by
  cases hfind : bucket.find? (matchesKey t l bondTolerance) with
  | none =>
    have hkey : resolveBondKey bucket t l bondTolerance = (t, roundTo 3 l) := by
      simp [resolveBondKey, hfind]
    rw [hkey]
    calc |(t, roundTo 3 l).2 - l| ≤ 1 / (2 * 10 ^ 3) := roundTo_sub_abs_le 3 l
      _ ≤ bondTolerance := by norm_num [bondTolerance]
  | some e =>
    have hkey : resolveBondKey bucket t l bondTolerance = e.1 := by
      simp [resolveBondKey, hfind]
    rw [hkey]
    have hp := List.find?_some hfind
    unfold matchesKey at hp
    rw [Bool.and_eq_true, decide_eq_true_eq] at hp
    exact hp.2

theorem bondAssignmentsAux_close :
    ∀ (bonds : List (String × ℚ)) (bucket : Bucket)
      (q : (String × ℚ) × (String × ℚ)), q ∈ bondAssignmentsAux bucket bonds →
      |q.2.2 - q.1.2| ≤ bondTolerance := by
  intro bonds
  induction bonds with
  | nil =>
    intro bucket q hq
    simp [bondAssignmentsAux] at hq
  | cons p rest ih =>
    intro bucket q hq
    rw [bondAssignmentsAux] at hq
    rcases List.mem_cons.mp hq with h1 | h2
    · subst h1
      exact resolveBondKey_close bucket p.1 p.2
    · exact ih _ _ h2

theorem dictToSummaries_sorted (data : Bucket) :
    List.Pairwise (fun x y => x.length ≤ y.length) (dictToSummaries data) := by
  have htrans : ∀ a b c : BondSummary, decide (a.length ≤ b.length) = true →
      decide (b.length ≤ c.length) = true → decide (a.length ≤ c.length) = true := by
    intro a b c h1 h2
    rw [decide_eq_true_eq] at *
    exact le_trans h1 h2
  have htotal : ∀ a b : BondSummary,
      (decide (a.length ≤ b.length) || decide (b.length ≤ a.length)) = true := by
    intro a b
    rcases le_total a.length b.length with h | h <;> simp [h]
  have hs := List.sorted_mergeSort htrans htotal
    (data.map fun e => BondSummary.mk e.1.1 e.1.2 e.2)
  exact hs.imp fun hab => of_decide_eq_true hab

/-- C8: bucket summaries are sorted ascending by length, and every bond
length accumulated into a bucket differs from its bucket's representative
length by at most the 0.008 tolerance. -/
theorem claim_bond_summaries_sorted_tolerance :
    (∀ data : Bucket,
      List.Pairwise (fun x y => x.length ≤ y.length) (dictToSummaries data)) ∧
    (∀ bonds : List (String × ℚ), ∀ q ∈ bondAssignments bonds,
      |q.2.2 - q.1.2| ≤ bondTolerance) :=
  ⟨dictToSummaries_sorted, fun bonds q hq => bondAssignmentsAux_close bonds [] q hq⟩

/-- Witness for C8: the single in-plane bond of length 2 is assigned the
representative (in-plane, 2), within tolerance. -/
theorem claim_bond_summaries_sorted_tolerance_witness :
    ((("in-plane", (2 : ℚ)), ("in-plane", (2 : ℚ))) ∈
      bondAssignments [("in-plane", 2)]) ∧
    |(2 : ℚ) - 2| ≤ bondTolerance :=
  ⟨by with_unfolding_all decide,
    claim_bond_summaries_sorted_tolerance.2 [("in-plane", 2)]
      (("in-plane", 2), ("in-plane", 2)) (by with_unfolding_all decide)⟩

theorem bucket_update_key_fst (e : (String × ℚ) × ℕ) (x : (String × ℚ) × ℕ) :
    (if x.1 == e.1 then (x.1, x.2 + 1) else x).1 = x.1 := by
  split <;> rfl

theorem addBond_of_find (bucket : Bucket) (t : String) (l : ℚ)
    (e : (String × ℚ) × ℕ) (hnd : (bucket.map fun x => x.1).Nodup)
    (hfind : bucket.find? (matchesKey t l bondTolerance) = some e) :
    addBond bucket t l = bucket.map fun x => if x.1 == e.1 then (x.1, x.2 + 1) else x := by
  have he : e ∈ bucket := List.mem_of_find?_eq_some hfind
  have hkey : resolveBondKey bucket t l bondTolerance = e.1 := by
    simp [resolveBondKey, hfind]
  have hfindkey : bucket.find? (fun x => x.1 == e.1) = some e := find_key_of_nodup hnd he
  have hget : bucketGet bucket e.1 = e.2 := by
    rw [bucketGet, hfindkey]
    rfl
  have hany : bucket.any (fun x => x.1 == e.1) = true :=
    List.any_eq_true.mpr ⟨e, he, beq_self_eq_true _⟩
  show bucketSet bucket (resolveBondKey bucket t l bondTolerance)
    (bucketGet bucket (resolveBondKey bucket t l bondTolerance) + 1) = _
  rw [hkey, hget, bucketSet, if_pos hany]
  apply List.map_congr_left
  intro x hx
  by_cases hbe : (x.1 == e.1) = true
  · have hxe : x = e :=
      List.inj_on_of_nodup_map hnd hx he (beq_iff_eq.mp hbe)
    rw [if_pos hbe, if_pos hbe, hxe]
  · rw [if_neg hbe, if_neg hbe]

theorem addBond_of_no_find (bucket : Bucket) (t : String) (l : ℚ)
    (hnone : bucket.find? (matchesKey t l bondTolerance) = none) :
    addBond bucket t l = bucket ++ [((t, roundTo 3 l), 1)] := by
  have hmatches := List.find?_eq_none.mp hnone
  have hkey : resolveBondKey bucket t l bondTolerance = (t, roundTo 3 l) := by
    simp [resolveBondKey, hnone]
  have hnotkey : ∀ x ∈ bucket, (x.1 == (t, roundTo 3 l)) = false := by
    intro x hx
    rw [beq_eq_false_iff_ne]
    intro heq
    apply hmatches x hx
    unfold matchesKey
    rw [Bool.and_eq_true, decide_eq_true_eq]
    refine ⟨by rw [heq]; exact beq_self_eq_true t, ?_⟩
    rw [heq]
    calc |(t, roundTo 3 l).2 - l| ≤ 1 / (2 * 10 ^ 3) := roundTo_sub_abs_le 3 l
      _ ≤ bondTolerance := by norm_num [bondTolerance]
  have hany : bucket.any (fun x => x.1 == (t, roundTo 3 l)) = false := by
    rw [List.any_eq_false]
    intro x hx
    simp [hnotkey x hx]
  have hget : bucketGet bucket (t, roundTo 3 l) = 0 := by
    rw [bucketGet, List.find?_eq_none.mpr fun x hx => by simp [hnotkey x hx]]
    rfl
  show bucketSet bucket (resolveBondKey bucket t l bondTolerance)
    (bucketGet bucket (resolveBondKey bucket t l bondTolerance) + 1) = _
  rw [hkey, hget, bucketSet, if_neg (by simp [hany])]

/-- C7: accumulating a bond into the bucket either increments the count of
the first existing entry of the same type whose representative length is
within the 0.008 tolerance (no entry is added and no representative is
changed), or, when no entry matches, appends a fresh bucket keyed by the
length rounded to 3 decimals with count 1; in particular length 2.006
against representative (interlayer, 2.000) merges into that bucket. -/
theorem claim_bond_bucket_merge :
    (∀ (bucket : Bucket) (t : String) (l : ℚ) (e : (String × ℚ) × ℕ),
      (bucket.map fun x => x.1).Nodup →
      bucket.find? (matchesKey t l bondTolerance) = some e →
        addBond bucket t l =
          (bucket.map fun x => if x.1 == e.1 then (x.1, x.2 + 1) else x) ∧
        ((addBond bucket t l).map fun x => x.1) = (bucket.map fun x => x.1) ∧
        bucketGet (addBond bucket t l) e.1 = e.2 + 1) ∧
    (∀ (bucket : Bucket) (t : String) (l : ℚ),
      bucket.find? (matchesKey t l bondTolerance) = none →
        addBond bucket t l = bucket ++ [((t, roundTo 3 l), 1)]) ∧
    addBond [(("interlayer", 2), 1)] "interlayer" (2006 / 1000) =
      [(("interlayer", 2), 2)] := by
  refine ⟨?_, addBond_of_no_find, by with_unfolding_all decide⟩
  intro bucket t l e hnd hfind
  have he : e ∈ bucket := List.mem_of_find?_eq_some hfind
  have haddeq := addBond_of_find bucket t l e hnd hfind
  refine ⟨haddeq, ?_, ?_⟩
  · rw [haddeq, List.map_map]
    exact List.map_congr_left fun x _ => bucket_update_key_fst e x
  · rw [haddeq, bucketGet, List.find?_map]
    have hfun : ((fun x : (String × ℚ) × ℕ => x.1 == e.1) ∘
        fun x => if x.1 == e.1 then (x.1, x.2 + 1) else x) =
        fun x : (String × ℚ) × ℕ => x.1 == e.1 := by
      funext x
      simp only [Function.comp]
      rw [bucket_update_key_fst e x]
    rw [hfun, find_key_of_nodup hnd he]
    simp [beq_self_eq_true e.1]

/-- Witness for C7 at the spec's merge example: length 2.006 against the
bucket [(interlayer, 2.000) with count 1]. -/
theorem claim_bond_bucket_merge_witness :
    (([((("interlayer" : String), (2 : ℚ)), 1)].map
        fun x : (String × ℚ) × ℕ => x.1).Nodup ∧
      [((("interlayer" : String), (2 : ℚ)), 1)].find?
        (matchesKey ("interlayer") (2006 / 1000) bondTolerance) =
        some ((("interlayer" : String), (2 : ℚ)), 1)) ∧
    ((addBond [(("interlayer", 2), 1)] "interlayer" (2006 / 1000)).map
        fun x : (String × ℚ) × ℕ => x.1) =
      ([((("interlayer" : String), (2 : ℚ)), 1)].map
        fun x : (String × ℚ) × ℕ => x.1) :=
  ⟨⟨by with_unfolding_all decide, by with_unfolding_all decide⟩,
    (claim_bond_bucket_merge.1 [(("interlayer", 2), 1)] "interlayer" (2006 / 1000)
      ((("interlayer", 2), 1)) (by with_unfolding_all decide)
      (by with_unfolding_all decide)).2.1⟩

/-- C2 counterexample: on a slab lattice with the long (vacuum) axis
third, the supercell built by _build_supercell does not have the lattice
claimed by the spec (in-plane rows tripled, vacuum row unchanged): the
scaling matrix's vacuum row is overwritten with [1, 1, 1], so the vacuum
row of the product is the sum of all three lattice vectors. -/
theorem claim_supercell_counterexample :
    makeSupercellLattice exampleLattice ≠ specSupercellLattice exampleLattice := by
  with_unfolding_all decide

/-- C2 amended: the supercell lattice produced by _build_supercell has its
two in-plane rows tripled, but its vacuum row equal to the sum of all
three input lattice vectors (the scaling matrix is diag(3,3,3) with the
entire vacuum row overwritten by [1,1,1]), not the unchanged vacuum
vector; the total multiplicity is still 9 = 3 x 3 x 1. -/
theorem claim_supercell_rows (L : Matrix (Fin 3) (Fin 3) ℚ) (i j : Fin 3) :
    makeSupercellLattice L i j =
      if i = vacuumDirection L then L 0 j + L 1 j + L 2 j else 3 * L i j := by
  rw [makeSupercellLattice, Matrix.mul_apply, Fin.sum_univ_three]
  by_cases hv : i = vacuumDirection L
  · rw [if_pos hv]
    simp [buildSupercellScaling, hv]
  · rw [if_neg hv]
    simp only [buildSupercellScaling, Matrix.of_apply, if_neg hv]
    fin_cases i <;> simp
